import Mathlib

/-!
Verification of the asio `thread_pool` specification.

The repository file `src/asio/include/asio/thread_pool.hpp` contains only the
class declarations and their documentation; the bodies live in
`asio/impl/thread_pool.hpp`, `asio/impl/thread_pool.ipp` and
`asio/detail/task_io_service.hpp`, which are not part of the source tree here.
The operational definitions below are therefore modelled from the
specification's documented contracts, while the structural facts (which
members each class stores) come from the header itself.
-/

namespace Asio

/-- A task is identified by the id of its submission event. -/
abbrev Task := Nat

/-- Modelled from the spec: the shared TaskQueue state of the pool's underlying
scheduler (`asio::detail::task_io_service`, whose implementation is not under
src). It owns a FIFO of pending tasks, the list of tasks currently being
executed by workers, the number of live WorkGuard increments, the integer
`outstanding` count and the boolean `stopping` flag. -/
structure TaskQueue where
  queue : List Task
  running : List Task
  workGuards : Nat
  outstanding : Nat
  stopping : Bool
deriving Repr, DecidableEq

/-- A freshly constructed pool's queue: empty, nothing outstanding, not stopped. -/
def newTaskQueue : TaskQueue := ⟨[], [], 0, 0, false⟩

/-- Modelled from the spec: `enqueue(task)` appends the task to the tail and
increments `outstanding` by one (the implementation is not under src). There
is no stopped-check: an enqueue after stop still stores the task. -/
def enqueue (s : TaskQueue) (t : Task) : TaskQueue :=
  { s with queue := s.queue ++ [t], outstanding := s.outstanding + 1 }

/-- Modelled from the spec: `stop()` sets the `stopping` flag; tasks already
queued are left in place and their outstanding increments are not released
(the implementation is not under src). -/
def TaskQueue.stop (s : TaskQueue) : TaskQueue :=
  { s with stopping := true }

/-- Modelled from the spec: `add_work()`, the atomic increment used exclusively
by WorkGuard construction and copy (the implementation is not under src). -/
def add_work (s : TaskQueue) : TaskQueue :=
  { s with workGuards := s.workGuards + 1, outstanding := s.outstanding + 1 }

/-- Modelled from the spec: `release_work()`, the atomic decrement used
exclusively by WorkGuard destruction (the implementation is not under src). -/
def release_work (s : TaskQueue) : TaskQueue :=
  { s with workGuards := s.workGuards - 1, outstanding := s.outstanding - 1 }

/-- Modelled from the spec: the popping half of `try_pop_and_run()` (the
implementation is not under src). A worker that observes `stopping` exits
without popping; otherwise it removes the head task and starts running it.
The outstanding increment of the popped task is held until completion. -/
def popTask (s : TaskQueue) : Option (Task × TaskQueue) :=
  if s.stopping then none
  else
    match s.queue with
    | [] => none
    | t :: rest => some (t, { s with queue := rest, running := s.running ++ [t] })

/-- Modelled from the spec: the completion half of `try_pop_and_run()` (the
implementation is not under src): on completion of a task the worker
decrements `outstanding` by one, undoing the increment from `enqueue`. -/
def completeTask (s : TaskQueue) (t : Task) : TaskQueue :=
  { s with running := s.running.erase t, outstanding := s.outstanding - 1 }

/-- Modelled from the spec: `post` unconditionally calls `enqueue` and never
runs the task inline (the implementation is not under src). The first argument
records whether the calling thread is a worker of this pool; `post` ignores
it. The returned `Option Task` is the task executed inline inside the call,
before it returns: always `none` for `post`. -/
def post (_isWorker : Bool) (s : TaskQueue) (t : Task) : TaskQueue × Option Task :=
  (enqueue s t, none)

/-- Modelled from the spec: `dispatch` runs the task synchronously, in place,
when the calling thread is currently executing as one of this pool's workers;
otherwise it behaves exactly as `post` (the implementation is not under src). -/
def dispatch (isWorker : Bool) (s : TaskQueue) (t : Task) : TaskQueue × Option Task :=
  if isWorker then (s, some t) else post isWorker s t

/-- Modelled from the spec: `defer` is semantically equivalent to `post` —
never inline, unconditional enqueue (the implementation is not under src). -/
def defer (isWorker : Bool) (s : TaskQueue) (t : Task) : TaskQueue × Option Task :=
  post isWorker s t

/-- Modelled from the spec: the WorkerLoop (the implementation is not under
src), sequentialised: while not stopping and the queue is nonempty, pop the
head task, run it to completion (decrementing `outstanding`), and loop. The
fuel bounds the number of iterations; the returned list is the execution log,
in order. A worker that observes `stopping` exits without draining. -/
def runWorkers : Nat → TaskQueue → TaskQueue × List Task
  | 0, s => (s, [])
  | Nat.succ fuel, s =>
    if s.stopping then (s, [])
    else
      match s.queue with
      | [] => (s, [])
      | t :: rest =>
        let r := runWorkers fuel { s with queue := rest, outstanding := s.outstanding - 1 }
        (r.1, t :: r.2)

/-- Modelled from the spec: the condition under which `join()` is permitted to
return — `outstanding` has reached zero (normal drain) or `stop()` has been
called (the implementation is not under src). -/
def joinCanReturn (s : TaskQueue) : Bool :=
  s.outstanding == 0 || s.stopping

/-- Submit a list of tasks via `post`, in order, from a non-worker thread. -/
def postAll (s : TaskQueue) (ts : List Task) : TaskQueue :=
  ts.foldl enqueue s

/-- Post the tasks `ts` on a fresh pool, then let the workers drain the queue. -/
def runPool (ts : List Task) : TaskQueue × List Task :=
  runWorkers (postAll newTaskQueue ts).queue.length (postAll newTaskQueue ts)

/-- The invariant relating the `outstanding` count to its three sources: each
queued task, each currently executing task and each live WorkGuard holds
exactly one increment. -/
abbrev Inv (s : TaskQueue) : Prop :=
  s.outstanding = s.queue.length + s.running.length + s.workGuards

/-- Lifecycle events of WorkGuard objects, each identified by a `Nat` id:
construction from an executor, copy construction, move construction and
destruction. -/
inductive GuardOp where
  | construct : Nat → GuardOp
  | copy : Nat → Nat → GuardOp
  | move : Nat → Nat → GuardOp
  | destroy : Nat → GuardOp
deriving Repr, DecidableEq

/-- The accounting state of the WorkGuard mechanism: the ids of guards that
currently own an outstanding increment (a moved-from guard owns none), and
the `outstanding` counter they act on. -/
structure GuardState where
  owners : List Nat
  outstanding : Nat
deriving Repr, DecidableEq

/-- Modelled from the spec: the effect of one WorkGuard lifecycle event on the
outstanding count (the constructor bodies live in impl files not under src).
Construction and copy construction call `add_work` (increment); move
construction transfers the source's increment to the destination (net zero);
destruction of an owning guard calls `release_work` (decrement); destruction
of a moved-from guard, which owns no increment, is a no-op. -/
def applyGuardOp (s : GuardState) : GuardOp → GuardState
  | .construct g => ⟨g :: s.owners, s.outstanding + 1⟩
  | .copy _src dst => ⟨dst :: s.owners, s.outstanding + 1⟩
  | .move src dst => ⟨dst :: s.owners.erase src, s.outstanding⟩
  | .destroy g =>
    if s.owners.contains g then ⟨s.owners.erase g, s.outstanding - 1⟩ else s

/-- Well-formedness of one event: new guard ids are fresh, a copy reads an
existing owning guard, a move takes its increment from an owning guard, and a
destroyed guard is destroyed only once. -/
def legalGuardOp (s : GuardState) : GuardOp → Bool
  | .construct g => !(s.owners.contains g)
  | .copy src dst => s.owners.contains src && !(s.owners.contains dst)
  | .move src dst => s.owners.contains src && !(s.owners.contains dst)
  | .destroy _g => true

/-- Well-formedness of a sequence of guard events, applied in order. -/
def legalGuardSeq (s : GuardState) : List GuardOp → Bool
  | [] => true
  | op :: rest => legalGuardOp s op && legalGuardSeq (applyGuardOp s op) rest

/-- Apply a sequence of guard events in order. -/
def applyGuardSeq (s : GuardState) (ops : List GuardOp) : GuardState :=
  ops.foldl applyGuardOp s

/-- A configuration of the whole system: the shared queue state plus the log
of tasks whose execution has started, in order. -/
structure Config where
  tq : TaskQueue
  log : List Task
deriving Repr, DecidableEq

/-- Modelled from the spec: one atomic transition of the pool system (the
scheduler implementation is not under src). A submission carries a fresh id;
a worker may start the head task when not stopping; a worker finishes a
running task; `stop` may be called at any time; WorkGuards may be created and
(while one is live) released. -/
inductive Step : Config → Config → Prop
  | submit (c : Config) (t : Task) :
      t ∉ c.log → t ∉ c.tq.queue → t ∉ c.tq.running →
      Step c ⟨enqueue c.tq t, c.log⟩
  | start (c : Config) (t : Task) (s2 : TaskQueue) :
      popTask c.tq = some (t, s2) →
      Step c ⟨s2, c.log ++ [t]⟩
  | finish (c : Config) (t : Task) :
      t ∈ c.tq.running →
      Step c ⟨completeTask c.tq t, c.log⟩
  | callStop (c : Config) :
      Step c ⟨c.tq.stop, c.log⟩
  | guardAdd (c : Config) :
      Step c ⟨add_work c.tq, c.log⟩
  | guardRelease (c : Config) :
      0 < c.tq.workGuards →
      Step c ⟨release_work c.tq, c.log⟩

/-- Reachability from the initial configuration by any number of steps. -/
def Reachable : Config → Config → Prop :=
  Relation.ReflTransGen Step

/-- The lifecycle state of a whole `thread_pool` object: its queue, the number
of live (not yet OS-joined) worker threads, and whether `stop` and `join`
have been called explicitly. -/
structure PoolState where
  tq : TaskQueue
  liveThreads : Nat
  stopCalled : Bool
  joinCalled : Bool
deriving Repr, DecidableEq

/-- Modelled from the spec: `thread_pool::stop` delegates to the scheduler's
stop (the implementation, impl/thread_pool.ipp, is not under src). -/
def tpStop (p : PoolState) : PoolState :=
  { p with tq := p.tq.stop, stopCalled := true }

/-- Modelled from the spec: `thread_pool::join` blocks until the workers are
done (drained, or stopped and exited) and then OS-joins every worker thread,
leaving no live threads (the implementation is not under src). -/
def tpJoin (p : PoolState) : PoolState :=
  { p with
      tq := (runWorkers p.tq.queue.length p.tq).1
      liveThreads := 0
      joinCalled := true }

/-- Modelled from the spec: the `thread_pool` destructor — if neither `stop`
nor `join` was called explicitly, it calls `stop()` then `join()` (the
implementation, impl/thread_pool.ipp, is not under src). -/
def tpDestroy (p : PoolState) : PoolState :=
  if !p.stopCalled && !p.joinCalled then tpJoin (tpStop p) else p

/-- The `thread_pool` class stores a reference to its underlying scheduler,
`detail::task_io_service& scheduler_` (header line 75); scheduler objects are
identified here by a `Nat` id. -/
structure thread_pool where
  scheduler_ : Nat
deriving Repr, DecidableEq

/-- The `thread_pool::executor_type` class stores `thread_pool& pool_`
(header line 142). -/
structure executor_type where
  pool_ : thread_pool
deriving Repr, DecidableEq

/-- The `thread_pool::executor_type::work` class stores its own
`detail::task_io_service& scheduler_` (header line 197) — a direct reference
to the scheduler, not a reference to the executor it was created from. -/
structure work where
  scheduler_ : Nat
deriving Repr, DecidableEq

/-- Modelled from the spec: the `work` constructor binds the guard to the
scheduler of the executor's pool (the constructor body is not under src); the
bound scheduler is fixed at construction since a C++ reference member cannot
be reseated. -/
def work.construct (e : executor_type) : work :=
  ⟨e.pool_.scheduler_⟩

/-- Modelled from the spec: the `work` copy constructor copies the source
guard's scheduler reference (the constructor body is not under src). -/
def work.copyFrom (other : work) : work :=
  ⟨other.scheduler_⟩

/-- The per-scheduler outstanding counters: the effect of a guard's
destruction is a decrement of the counter of the scheduler stored in the
guard, whatever has happened to any executor in the meantime. -/
def releaseAt (counters : Nat → Nat) (w : work) : Nat → Nat :=
  fun i => if i = w.scheduler_ then counters i - 1 else counters i

/-- The increment half: construction and copy increment the counter of the
scheduler stored in the guard. -/
def addAt (counters : Nat → Nat) (w : work) : Nat → Nat :=
  fun i => if i = w.scheduler_ then counters i + 1 else counters i

end Asio

namespace Asio

theorem runWorkers_stopped (fuel : Nat) (s : TaskQueue) (h : s.stopping = true) :
    runWorkers fuel s = (s, []) := by
  cases fuel with
  | zero => rfl
  | succ n => simp [runWorkers, h]

theorem postAll_spec (ts : List Task) (s : TaskQueue) :
    postAll s ts =
      { s with queue := s.queue ++ ts, outstanding := s.outstanding + ts.length } := by
  induction ts generalizing s with
  | nil => simp [postAll]
  | cons t rest ih =>
    simp only [postAll] at ih ⊢
    rw [List.foldl_cons, ih]
    simp only [enqueue, List.append_assoc, List.singleton_append, List.length_cons,
      TaskQueue.mk.injEq]
    refine ⟨trivial, trivial, trivial, by omega, trivial⟩

theorem runWorkers_drains (fuel : Nat) (s : TaskQueue)
    (hstop : s.stopping = false) (hfuel : s.queue.length ≤ fuel) :
    runWorkers fuel s =
      ({ s with queue := [], outstanding := s.outstanding - s.queue.length },
        s.queue) := by
  induction fuel generalizing s with
  | zero =>
    obtain ⟨q, rl, wg, o, st⟩ := s
    simp only at hfuel
    have hq : q = [] := List.length_eq_zero.mp (Nat.le_zero.mp hfuel)
    subst hq
    simp [runWorkers]
  | succ n ih =>
    obtain ⟨q, rl, wg, o, st⟩ := s
    simp only at hstop hfuel
    subst hstop
    cases q with
    | nil => simp [runWorkers]
    | cons t rest =>
      have hlen : rest.length ≤ n := by
        simp only [List.length_cons] at hfuel
        omega
      have h2 := ih ⟨rest, rl, wg, o - 1, false⟩ rfl hlen
      simp only [runWorkers, Bool.false_eq_true, if_false]
      rw [h2]
      simp only [List.length_cons, TaskQueue.mk.injEq, Prod.mk.injEq]
      exact ⟨⟨trivial, trivial, trivial, by omega, trivial⟩, trivial⟩

/-- C2: `dispatch` from a thread currently executing as a worker of this pool
invokes the task synchronously before returning, with no enqueue and no
change to the outstanding count; from any other thread it behaves exactly as
`post`: the task is enqueued, nothing runs inline, and the call returns
without waiting. -/
theorem dispatch_inline_on_worker_else_post :
    (∀ s t, dispatch true s t = (s, some t)) ∧
    (∀ s t, (dispatch true s t).1.outstanding = s.outstanding ∧
      (dispatch true s t).1.queue = s.queue) ∧
    (∀ s t, dispatch false s t = post false s t ∧
      (dispatch false s t).2 = none ∧
      (dispatch false s t).1.queue = s.queue ++ [t] ∧
      (dispatch false s t).1.outstanding = s.outstanding + 1) :=
  ⟨fun _ _ => rfl, fun _ _ => ⟨rfl, rfl⟩, fun _ _ => ⟨rfl, rfl, rfl, rfl⟩⟩

/-- C6: `post` never executes the task inline — whether or not the caller is a
worker of this pool, it unconditionally enqueues the task and returns with no
inline execution. -/
theorem post_never_inline :
    ∀ (isWorker : Bool) (s : TaskQueue) (t : Task),
      post isWorker s t = (enqueue s t, none) ∧
      (post isWorker s t).2 = none ∧
      (post isWorker s t).1.queue = s.queue ++ [t] :=
  fun _ _ _ => ⟨rfl, rfl, rfl⟩

/-- C7: `defer` is semantically equivalent to `post` — for every caller and
every task the two produce identical results, and `defer` never runs the
task inline. -/
theorem defer_equivalent_to_post :
    ∀ (isWorker : Bool) (s : TaskQueue) (t : Task),
      defer isWorker s t = post isWorker s t ∧ (defer isWorker s t).2 = none :=
  fun _ _ _ => ⟨rfl, rfl⟩

/-- C4: after `stop()`, workers execute none of the queued tasks and the queue
and outstanding count are left untouched (the abandoned increments are never
released); `join` may return immediately; and a task posted after `stop` is
still accepted and stored at the tail but is never run. -/
theorem stop_abandons_queued_tasks :
    (∀ fuel s, runWorkers fuel (TaskQueue.stop s) = (TaskQueue.stop s, [])) ∧
    (∀ s, (TaskQueue.stop s).queue = s.queue ∧
      (TaskQueue.stop s).outstanding = s.outstanding) ∧
    (∀ s, joinCanReturn (TaskQueue.stop s) = true) ∧
    (∀ (w : Bool) s t, (post w (TaskQueue.stop s) t).1.queue = s.queue ++ [t] ∧
      (post w (TaskQueue.stop s) t).2 = none ∧
      ∀ fuel, runWorkers fuel (post w (TaskQueue.stop s) t).1 =
        ((post w (TaskQueue.stop s) t).1, [])) :=
  ⟨fun fuel s => runWorkers_stopped fuel _ rfl,
    fun _ => ⟨rfl, rfl⟩,
    fun s => by simp [joinCanReturn, TaskQueue.stop],
    fun _ s t => ⟨rfl, rfl, fun fuel => runWorkers_stopped fuel _ rfl⟩⟩

/-- C1: for every list of (distinct) task ids posted before `join` on a fresh
pool that is never stopped, by the time the workers have drained the queue
and `join` is allowed to return, every posted task has executed exactly once
(indeed the execution log is exactly the submission list) and the
outstanding count is zero. -/
theorem posted_tasks_execute_exactly_once_by_join
    (ts : List Task) (hnd : ts.Nodup) :
    (∀ t ∈ ts, (runPool ts).2.count t = 1) ∧
    (runPool ts).2 = ts ∧
    (runPool ts).1.outstanding = 0 ∧
    joinCanReturn (runPool ts).1 = true := by
  have hps : postAll newTaskQueue ts =
      { queue := ts, running := [], workGuards := 0, outstanding := ts.length,
        stopping := false } := by
    rw [postAll_spec]
    simp [newTaskQueue]
  have hrun : runPool ts = (⟨[], [], 0, 0, false⟩, ts) := by
    unfold runPool
    rw [hps]
    rw [runWorkers_drains _ _ rfl (le_refl _)]
    simp
  refine ⟨fun t ht => ?_, ?_, ?_, ?_⟩
  · rw [hrun]
    exact List.count_eq_one_of_mem hnd ht
  · rw [hrun]
  · rw [hrun]
  · rw [hrun]
    rfl

/-- Witness for C1 at the concrete submission list `[0, 1, 2]`. -/
theorem posted_tasks_execute_exactly_once_by_join_witness :
    (∀ t ∈ [0, 1, 2], (runPool [0, 1, 2]).2.count t = 1) ∧
    (runPool [0, 1, 2]).2 = [0, 1, 2] ∧
    (runPool [0, 1, 2]).1.outstanding = 0 ∧
    joinCanReturn (runPool [0, 1, 2]).1 = true :=
  posted_tasks_execute_exactly_once_by_join [0, 1, 2] (by decide)

/-- C5: the accounting invariant — `outstanding` equals the number of queued
tasks plus executing tasks plus live WorkGuards — is preserved by every
operation (enqueue, pop, completion, guard add/release, stop), and under it
`outstanding = 0` forces an empty queue, no executing task and no live
guard, while a live guard or a queued or executing task forces
`outstanding > 0`. -/
theorem outstanding_invariant_preserved :
    (∀ s t, Inv s → Inv (enqueue s t)) ∧
    (∀ s t s2, Inv s → popTask s = some (t, s2) → Inv s2) ∧
    (∀ s t, Inv s → t ∈ s.running → Inv (completeTask s t)) ∧
    (∀ s, Inv s → Inv (add_work s)) ∧
    (∀ s, Inv s → 0 < s.workGuards → Inv (release_work s)) ∧
    (∀ s, Inv s → Inv (TaskQueue.stop s)) ∧
    (∀ s, Inv s → s.outstanding = 0 →
      s.queue = [] ∧ s.running = [] ∧ s.workGuards = 0) ∧
    (∀ s, Inv s → (0 < s.workGuards ∨ s.queue ≠ [] ∨ s.running ≠ []) →
      0 < s.outstanding) := by
  refine ⟨?_, ?_, ?_, ?_, ?_, ?_, ?_, ?_⟩
  · intro s t h
    simp only [Inv, enqueue, List.length_append, List.length_singleton]
    omega
  · intro s t s2 h hp
    obtain ⟨q, rl, wg, o, st⟩ := s
    cases st with
    | true => simp [popTask] at hp
    | false =>
      cases q with
      | nil => simp [popTask] at hp
      | cons a rest =>
        simp only [popTask, Bool.false_eq_true, if_false, Option.some.injEq,
          Prod.mk.injEq] at hp
        obtain ⟨ha, hs2⟩ := hp
        subst ha
        subst hs2
        simp [Inv] at h ⊢
        omega
  · intro s t h ht
    have h1 : (s.running.erase t).length = s.running.length - 1 :=
      List.length_erase_of_mem ht
    have h2 : 0 < s.running.length :=
      List.length_pos.mpr (fun he => by simp [he] at ht)
    simp only [Inv, completeTask, h1] at h ⊢
    omega
  · intro s h
    simp only [Inv, add_work] at h ⊢
    omega
  · intro s h hw
    simp only [Inv, release_work] at h ⊢
    omega
  · intro s h
    simpa only [Inv, TaskQueue.stop] using h
  · intro s h h0
    simp only [Inv] at h
    rw [h0] at h
    refine ⟨List.length_eq_zero.mp ?_, List.length_eq_zero.mp ?_, ?_⟩ <;> omega
  · intro s h hpos
    have hq : s.queue ≠ [] → 0 < s.queue.length := fun hne => List.length_pos.mpr hne
    have hr : s.running ≠ [] → 0 < s.running.length := fun hne => List.length_pos.mpr hne
    rcases hpos with hg | hne | hne
    · omega
    · have := hq hne; omega
    · have := hr hne; omega

/-- Witness for C5 at the concrete state with one queued task, one executing
task and one live guard. -/
theorem outstanding_invariant_preserved_witness :
    Inv (enqueue ⟨[5], [7], 1, 3, false⟩ 9) ∧
    Inv (⟨[], [7, 5], 1, 3, false⟩ : TaskQueue) ∧
    Inv (completeTask ⟨[5], [7], 1, 3, false⟩ 7) ∧
    Inv (add_work ⟨[5], [7], 1, 3, false⟩) ∧
    Inv (release_work ⟨[5], [7], 1, 3, false⟩) ∧
    Inv (TaskQueue.stop ⟨[5], [7], 1, 3, false⟩) ∧
    ((⟨[], [], 0, 0, false⟩ : TaskQueue).queue = [] ∧
      (⟨[], [], 0, 0, false⟩ : TaskQueue).running = [] ∧
      (⟨[], [], 0, 0, false⟩ : TaskQueue).workGuards = 0) ∧
    0 < (⟨[5], [7], 1, 3, false⟩ : TaskQueue).outstanding :=
  ⟨outstanding_invariant_preserved.1 ⟨[5], [7], 1, 3, false⟩ 9 (by decide),
    outstanding_invariant_preserved.2.1 ⟨[5], [7], 1, 3, false⟩ 5
      ⟨[], [7, 5], 1, 3, false⟩ (by decide) (by decide),
    outstanding_invariant_preserved.2.2.1 ⟨[5], [7], 1, 3, false⟩ 7 (by decide)
      (by decide),
    outstanding_invariant_preserved.2.2.2.1 ⟨[5], [7], 1, 3, false⟩ (by decide),
    outstanding_invariant_preserved.2.2.2.2.1 ⟨[5], [7], 1, 3, false⟩ (by decide)
      (by decide),
    outstanding_invariant_preserved.2.2.2.2.2.1 ⟨[5], [7], 1, 3, false⟩
      (by decide),
    outstanding_invariant_preserved.2.2.2.2.2.2.1 ⟨[], [], 0, 0, false⟩
      (by decide) (by decide),
    outstanding_invariant_preserved.2.2.2.2.2.2.2 ⟨[5], [7], 1, 3, false⟩
      (by decide) (Or.inl (by decide))⟩

theorem guard_step_preserves (n : Nat) (s : GuardState) (op : GuardOp)
    (hleg : legalGuardOp s op = true)
    (hnd : s.owners.Nodup) (hinv : s.outstanding = n + s.owners.length) :
    (applyGuardOp s op).owners.Nodup ∧
    (applyGuardOp s op).outstanding = n + (applyGuardOp s op).owners.length := by
  cases op with
  | construct g =>
    simp only [legalGuardOp, Bool.not_eq_eq_eq_not, Bool.not_true] at hleg
    have hg : g ∉ s.owners := by simpa using hleg
    simp only [applyGuardOp]
    exact ⟨List.nodup_cons.mpr ⟨hg, hnd⟩, by simp only [List.length_cons]; omega⟩
  | copy src dst =>
    simp only [legalGuardOp, Bool.and_eq_true, Bool.not_eq_eq_eq_not,
      Bool.not_true] at hleg
    have hd : dst ∉ s.owners := by simpa using hleg.2
    simp only [applyGuardOp]
    exact ⟨List.nodup_cons.mpr ⟨hd, hnd⟩, by simp only [List.length_cons]; omega⟩
  | move src dst =>
    simp only [legalGuardOp, Bool.and_eq_true, Bool.not_eq_eq_eq_not,
      Bool.not_true] at hleg
    have hsm : src ∈ s.owners := by simpa using hleg.1
    have hd : dst ∉ s.owners := by simpa using hleg.2
    have hd2 : dst ∉ s.owners.erase src :=
      fun hmem => hd (List.mem_of_mem_erase hmem)
    have hlen : (s.owners.erase src).length = s.owners.length - 1 :=
      List.length_erase_of_mem hsm
    have hpos : 0 < s.owners.length :=
      List.length_pos.mpr (fun he => by simp [he] at hsm)
    simp only [applyGuardOp]
    refine ⟨List.nodup_cons.mpr ⟨hd2, hnd.erase src⟩, ?_⟩
    simp only [List.length_cons, hlen]
    omega
  | destroy g =>
    by_cases hg : s.owners.contains g = true
    · have hgm : g ∈ s.owners := by simpa using hg
      have hlen : (s.owners.erase g).length = s.owners.length - 1 :=
        List.length_erase_of_mem hgm
      have hpos : 0 < s.owners.length :=
        List.length_pos.mpr (fun he => by simp [he] at hgm)
      simp only [applyGuardOp, hg, if_true]
      exact ⟨hnd.erase g, by rw [hlen]; omega⟩
    · simp only [applyGuardOp, hg, if_false]
      exact ⟨hnd, hinv⟩

theorem guard_seq_preserves (n : Nat) (ops : List GuardOp) (s : GuardState)
    (hleg : legalGuardSeq s ops = true) (hnd : s.owners.Nodup)
    (hinv : s.outstanding = n + s.owners.length) :
    (applyGuardSeq s ops).owners.Nodup ∧
    (applyGuardSeq s ops).outstanding = n + (applyGuardSeq s ops).owners.length := by
  induction ops generalizing s with
  | nil => exact ⟨hnd, hinv⟩
  | cons op rest ih =>
    simp only [legalGuardSeq, Bool.and_eq_true] at hleg
    obtain ⟨hop, hrest⟩ := hleg
    have h := guard_step_preserves n s op hop hnd hinv
    exact ih (applyGuardOp s op) hrest h.1 h.2

/-- C3: WorkGuard accounting — construction and copy construction each
increment the outstanding count by one; move construction leaves it
unchanged, transferring ownership of the increment from source to
destination; destruction of an owning guard decrements it by one;
destruction of a moved-from guard is a no-op; and over every well-formed
sequence of guard events starting from no guards, the net contribution to
`outstanding` equals the number of guards currently alive (owning). -/
theorem work_guard_net_outstanding :
    (∀ s g, (applyGuardOp s (GuardOp.construct g)).outstanding =
      s.outstanding + 1) ∧
    (∀ s a b, (applyGuardOp s (GuardOp.copy a b)).outstanding =
      s.outstanding + 1) ∧
    (∀ s a b, (applyGuardOp s (GuardOp.move a b)).outstanding =
      s.outstanding) ∧
    (∀ s a b, s.owners.Nodup → a ∈ s.owners → a ≠ b →
      b ∈ (applyGuardOp s (GuardOp.move a b)).owners ∧
      a ∉ (applyGuardOp s (GuardOp.move a b)).owners) ∧
    (∀ s g, s.owners.contains g = true →
      (applyGuardOp s (GuardOp.destroy g)).outstanding = s.outstanding - 1) ∧
    (∀ s g, s.owners.contains g = false →
      applyGuardOp s (GuardOp.destroy g) = s) ∧
    (∀ (n : Nat) (ops : List GuardOp),
      legalGuardSeq ⟨[], n⟩ ops = true →
      (applyGuardSeq ⟨[], n⟩ ops).outstanding =
        n + (applyGuardSeq ⟨[], n⟩ ops).owners.length) := by
  refine ⟨fun _ _ => rfl, fun _ _ _ => rfl, fun _ _ _ => rfl, ?_, ?_, ?_, ?_⟩
  · intro s a b hnd ha hab
    simp only [applyGuardOp]
    refine ⟨List.mem_cons_self _ _, ?_⟩
    intro hmem
    rcases List.mem_cons.mp hmem with heq | hmem2
    · exact hab heq
    · exact hnd.not_mem_erase hmem2
  · intro s g hg
    have hm : g ∈ s.owners := by simpa using hg
    simp [applyGuardOp, hm]
  · intro s g hg
    have hm : g ∉ s.owners := by simpa using hg
    simp [applyGuardOp, hm]
  · intro n ops hleg
    exact (guard_seq_preserves n ops ⟨[], n⟩ hleg List.nodup_nil (by simp)).2

/-- Witness for C3: guard 0 is constructed, copied to guard 1, moved to guard
2; the moved-from guard 0's destruction is a no-op; after all guards are
destroyed the outstanding count is back to its base value 4. -/
theorem work_guard_net_outstanding_witness :
    (applyGuardOp ⟨[], 4⟩ (GuardOp.construct 0)).outstanding = 4 + 1 ∧
    (applyGuardOp ⟨[0], 5⟩ (GuardOp.copy 0 1)).outstanding = 5 + 1 ∧
    (applyGuardOp ⟨[1, 0], 6⟩ (GuardOp.move 0 2)).outstanding = 6 ∧
    (2 ∈ (applyGuardOp ⟨[1, 0], 6⟩ (GuardOp.move 0 2)).owners ∧
      0 ∉ (applyGuardOp ⟨[1, 0], 6⟩ (GuardOp.move 0 2)).owners) ∧
    (applyGuardOp ⟨[2, 1], 6⟩ (GuardOp.destroy 2)).outstanding = 6 - 1 ∧
    applyGuardOp ⟨[1], 5⟩ (GuardOp.destroy 0) = ⟨[1], 5⟩ ∧
    (applyGuardSeq ⟨[], 4⟩
        [GuardOp.construct 0, GuardOp.copy 0 1, GuardOp.move 0 2,
          GuardOp.destroy 2, GuardOp.destroy 0, GuardOp.destroy 1]).outstanding =
      4 + (applyGuardSeq ⟨[], 4⟩
        [GuardOp.construct 0, GuardOp.copy 0 1, GuardOp.move 0 2,
          GuardOp.destroy 2, GuardOp.destroy 0, GuardOp.destroy 1]).owners.length :=
  ⟨work_guard_net_outstanding.1 ⟨[], 4⟩ 0,
    work_guard_net_outstanding.2.1 ⟨[0], 5⟩ 0 1,
    work_guard_net_outstanding.2.2.1 ⟨[1, 0], 6⟩ 0 2,
    work_guard_net_outstanding.2.2.2.1 ⟨[1, 0], 6⟩ 0 2 (by decide) (by decide)
      (by decide),
    work_guard_net_outstanding.2.2.2.2.1 ⟨[2, 1], 6⟩ 2 (by decide),
    work_guard_net_outstanding.2.2.2.2.2.1 ⟨[1], 5⟩ 0 (by decide),
    work_guard_net_outstanding.2.2.2.2.2.2 4
      [GuardOp.construct 0, GuardOp.copy 0 1, GuardOp.move 0 2,
        GuardOp.destroy 2, GuardOp.destroy 0, GuardOp.destroy 1] (by decide)⟩

theorem popTask_eq_some (s : TaskQueue) (t : Task) (s2 : TaskQueue)
    (h : popTask s = some (t, s2)) :
    s.stopping = false ∧ ∃ rest, s.queue = t :: rest ∧
      s2 = { s with queue := rest, running := s.running ++ [t] } := by
  obtain ⟨q, rl, wg, o, st⟩ := s
  cases st with
  | true => simp [popTask] at h
  | false =>
    cases q with
    | nil => simp [popTask] at h
    | cons a rest =>
      simp only [popTask, Bool.false_eq_true, if_false, Option.some.injEq,
        Prod.mk.injEq] at h
      obtain ⟨ha, hs2⟩ := h
      subst ha
      exact ⟨rfl, rest, rfl, hs2.symm⟩

theorem step_preserves_nodup (c c2 : Config) (hs : Step c c2)
    (h : (c.log ++ c.tq.queue).Nodup) : (c2.log ++ c2.tq.queue).Nodup := by
  cases hs with
  | submit t h1 h2 h3 =>
    simp only [enqueue]
    rw [← List.append_assoc]
    refine List.Nodup.append h (List.nodup_singleton t) ?_
    intro a ha hb
    rw [List.mem_singleton] at hb
    subst hb
    rcases List.mem_append.mp ha with hmem | hmem
    · exact h1 hmem
    · exact h2 hmem
  | start t s2 hp =>
    obtain ⟨hstop, rest, hq, hs2⟩ := popTask_eq_some _ _ _ hp
    subst hs2
    simp only
    rw [List.append_assoc]
    simp only [List.singleton_append]
    rw [← hq]
    exact h
  | finish t ht => simpa [completeTask] using h
  | callStop => simpa [TaskQueue.stop] using h
  | guardAdd => simpa [add_work] using h
  | guardRelease hw => simpa [release_work] using h

theorem reachable_nodup (c : Config)
    (h : Reachable ⟨newTaskQueue, []⟩ c) : (c.log ++ c.tq.queue).Nodup := by
  unfold Reachable at h
  induction h with
  | refl => simp [newTaskQueue]
  | tail hr hstep ih => exact step_preserves_nodup _ _ hstep ih

/-- C8: in every configuration reachable from a fresh pool — by submissions
with fresh ids, workers starting and finishing tasks, stop calls and
WorkGuard activity — every task id occurs at most once in the execution log:
no submitted task is ever executed twice. -/
theorem submitted_task_runs_at_most_once (c : Config)
    (h : Reachable ⟨newTaskQueue, []⟩ c) (t : Task) :
    c.log.count t ≤ 1 := by
  have hn := reachable_nodup c h
  have hlog : c.log.Nodup := (List.nodup_append.mp hn).1
  exact List.nodup_iff_count_le_one.mp hlog t

/-- Witness for C8: a concrete three-step run — submit task 0, start it,
finish it — after which the log records task 0 exactly once. -/
theorem submitted_task_runs_at_most_once_witness :
    (Config.mk ⟨[], [], 0, 0, false⟩ [0]).log.count 0 ≤ 1 := by
  refine submitted_task_runs_at_most_once _ ?_ 0
  have s1 : Step ⟨newTaskQueue, []⟩ ⟨⟨[0], [], 0, 1, false⟩, []⟩ := by
    have h := Step.submit ⟨newTaskQueue, []⟩ 0 (by simp) (by simp [newTaskQueue])
      (by simp [newTaskQueue])
    simpa [enqueue, newTaskQueue] using h
  have s2 : Step ⟨⟨[0], [], 0, 1, false⟩, []⟩ ⟨⟨[], [0], 0, 1, false⟩, [0]⟩ := by
    have h := Step.start ⟨⟨[0], [], 0, 1, false⟩, []⟩ 0 ⟨[], [0], 0, 1, false⟩
      (by decide)
    simpa using h
  have s3 : Step ⟨⟨[], [0], 0, 1, false⟩, [0]⟩ ⟨⟨[], [], 0, 0, false⟩, [0]⟩ := by
    have h := Step.finish ⟨⟨[], [0], 0, 1, false⟩, [0]⟩ 0 (by simp)
    simpa [completeTask] using h
  exact Relation.ReflTransGen.tail (Relation.ReflTransGen.tail
    (Relation.ReflTransGen.tail Relation.ReflTransGen.refl s1) s2) s3

/-- C9: on a pool where neither `stop` nor `join` was called explicitly, the
destructor calls `stop()` and then `join()`, and after destruction the pool
holds no live worker threads. -/
theorem destructor_stops_then_joins (p : PoolState)
    (h1 : p.stopCalled = false) (h2 : p.joinCalled = false) :
    tpDestroy p = tpJoin (tpStop p) ∧ (tpDestroy p).liveThreads = 0 := by
  have he : tpDestroy p = tpJoin (tpStop p) := by
    simp [tpDestroy, h1, h2]
  exact ⟨he, by rw [he]; simp [tpJoin]⟩

/-- Witness for C9 at a concrete two-thread pool with one queued task. -/
theorem destructor_stops_then_joins_witness :
    tpDestroy ⟨⟨[3], [], 0, 1, false⟩, 2, false, false⟩ =
      tpJoin (tpStop ⟨⟨[3], [], 0, 1, false⟩, 2, false, false⟩) ∧
    (tpDestroy ⟨⟨[3], [], 0, 1, false⟩, 2, false, false⟩).liveThreads = 0 :=
  destructor_stops_then_joins ⟨⟨[3], [], 0, 1, false⟩, 2, false, false⟩ rfl rfl

/-- C10: a WorkGuard constructed from an executor stores the scheduler of the
executor's pool directly (not the executor); a copy takes its scheduler from
the source guard; two executors over the same scheduler yield
interchangeable guards; and the counter the guard increments and decrements
is the one fixed at construction, untouched at every other index. -/
theorem work_stores_scheduler_reference :
    (∀ e : executor_type, (work.construct e).scheduler_ = e.pool_.scheduler_) ∧
    (∀ w : work, (work.copyFrom w).scheduler_ = w.scheduler_) ∧
    (∀ e1 e2 : executor_type, e1.pool_.scheduler_ = e2.pool_.scheduler_ →
      work.construct e1 = work.construct e2) ∧
    (∀ (e : executor_type) (counters : Nat → Nat),
      releaseAt counters (work.construct e) e.pool_.scheduler_ =
        counters e.pool_.scheduler_ - 1 ∧
      addAt counters (work.construct e) e.pool_.scheduler_ =
        counters e.pool_.scheduler_ + 1 ∧
      ∀ i, i ≠ e.pool_.scheduler_ →
        releaseAt counters (work.construct e) i = counters i ∧
        addAt counters (work.construct e) i = counters i) := by
  refine ⟨fun _ => rfl, fun _ => rfl, ?_, ?_⟩
  · intro e1 e2 hsch
    simp [work.construct, hsch]
  · intro e counters
    refine ⟨by simp [releaseAt, work.construct], by simp [addAt, work.construct], ?_⟩
    intro i hi
    constructor
    · simp [releaseAt, work.construct, hi]
    · simp [addAt, work.construct, hi]

/-- Witness for C10 at two distinct executors over scheduler 7 and a concrete
counter family. -/
theorem work_stores_scheduler_reference_witness :
    work.construct ⟨⟨7⟩⟩ = work.construct ⟨⟨7⟩⟩ ∧
    releaseAt (fun _ => 10) (work.construct ⟨⟨7⟩⟩)
        (executor_type.mk ⟨7⟩).pool_.scheduler_ =
      (fun _ => 10) (executor_type.mk ⟨7⟩).pool_.scheduler_ - 1 ∧
    releaseAt (fun _ => 10) (work.construct ⟨⟨7⟩⟩) 3 = (fun _ => 10) 3 :=
  ⟨work_stores_scheduler_reference.2.2.1 ⟨⟨7⟩⟩ ⟨⟨7⟩⟩ rfl,
    (work_stores_scheduler_reference.2.2.2 ⟨⟨7⟩⟩ (fun _ => 10)).1,
    ((work_stores_scheduler_reference.2.2.2 ⟨⟨7⟩⟩ (fun _ => 10)).2.2 3
      (by decide)).1⟩

end Asio
